import Mathlib

/-!
Verification development for the Sweep & Spectral Analysis Engine of the
amp-benchkit repository (frequency-plan generation, fail-soft sweep
orchestration, FFT-based THD computation, knee-frequency detection).

The Python sources are shallowly embedded over `ℚ`.  Python floats are
modelled by rationals; the float value `nan` is modelled by the dedicated
constructor `EF.nan` of an extended-value type, since every place the code
produces or tests a NaN is an explicit sentinel path.  External numpy /
math library primitives that the repository merely calls (`np.fft.rfft`
magnitudes, `np.hanning`, `np.hamming`, `np.sqrt`, `np.log10`, `math.exp`,
`math.log`) are abstracted as function parameters bundled in structures;
everything the repository itself computes is embedded directly.
Python exceptions raised by injected callbacks are modelled with
`Except String`; the orchestrator itself is a total function, mirroring
the fact that its `try/except` swallows every per-point exception.
-/

/-- Extended value: a Python float that is either NaN or a finite rational. -/
inductive EF where
  | nan : EF
  | val : ℚ → EF
deriving DecidableEq

/-- ASCII lowercase of one character, used to model Python `str.lower()`. -/
def lowerChar (c : Char) : Char :=
  if 'A' ≤ c ∧ c ≤ 'Z' then Char.ofNat (c.toNat + 32) else c

/-- Model of `mode.lower().startswith("log")` from `build_freq_points`
(`amp_benchkit/automation.py`). -/
def isLogMode (mode : String) : Bool :=
  match mode.data.map lowerChar with
  | 'l' :: 'o' :: 'g' :: _ => true
  | _ => false

/-- Round-half-to-even on rationals: the rounding rule of Python `round`
applied to an exact rational scaled value. -/
def roundHalfEven (x : ℚ) : ℤ :=
  let n := ⌊x⌋
  let frac := x - n
  if frac < 1 / 2 then n
  else if 1 / 2 < frac then n + 1
  else if n % 2 = 0 then n else n + 1

/-- Model of Python `round(v, 6)`: round to six decimal places. -/
def round6 (x : ℚ) : ℚ := (roundHalfEven (x * 10 ^ 6) : ℚ) / 10 ^ 6

/-- Insert into a sorted list, auxiliary for `sortQ`. -/
def insertLe (x : ℚ) : List ℚ → List ℚ
  | [] => [x]
  | y :: ys => if x ≤ y then x :: y :: ys else y :: insertLe x ys

/-- Insertion sort for rationals (only executability matters here). -/
def sortQ : List ℚ → List ℚ
  | [] => []
  | x :: xs => insertLe x (sortQ xs)

/-- Model of `np.median`: middle element of the sorted list, or the mean of
the two middle elements for even length.  (For the empty list numpy yields
NaN; this model returns the junk value 0 there, a case that cannot arise
for the waveforms in the data model, whose time series has ≥ 16 samples.) -/
def medianQ (l : List ℚ) : ℚ :=
  let s := sortQ l
  let k := l.length
  if k % 2 = 1 then s.getD (k / 2) 0
  else (s.getD (k / 2 - 1) 0 + s.getD (k / 2) 0) / 2

/-- Model of `np.diff`: consecutive differences. -/
def diffs (t : List ℚ) : List ℚ := List.zipWith (fun a b => b - a) t t.tail

/-- Sample-interval estimation of `thd_fft` (`amp_benchkit/dsp.py` lines
35-38): median of consecutive time differences; if non-positive, fall back
to span/(n-1); if the span is also non-positive, the nominal 1e-6 s. -/
def sampleInterval (t : List ℚ) (n : ℕ) : ℚ :=
  let dt := medianQ (diffs t)
  if dt ≤ 0 then
    let span := t.getLast?.getD 0 - t.head?.getD 0
    if 0 < span then span / ((n - 1 : ℕ) : ℚ) else 1 / 1000000
  else dt

/-- Number of bins of a one-sided real FFT of `n` samples (`n//2 + 1`). -/
def rfftLen (n : ℕ) : ℕ := n / 2 + 1

/-- Model of `np.fft.rfftfreq(n, d=dt)`: frequency of bin `i`. -/
def rfftfreq (n : ℕ) (dt : ℚ) (i : ℕ) : ℚ := (i : ℚ) / ((n : ℚ) * dt)

/-- First index attaining the maximum of `g`, scanning `idxs` with current
best `best`; models the first-maximum tie-break of `np.argmax`. -/
def argMaxAux (g : ℕ → ℚ) : List ℕ → ℕ → ℕ
  | [], best => best
  | j :: rest, best => argMaxAux g rest (if g best < g j then j else best)

/-- First index attaining the minimum of `g`, scanning `idxs` with current
best `best`; models the first-minimum tie-break of `np.argmin`. -/
def argMinAux (g : ℕ → ℚ) : List ℕ → ℕ → ℕ
  | [], best => best
  | j :: rest, best => argMinAux g rest (if g j < g best then j else best)

/-- Model of `np.argmax(g[lo:]) + lo` over the index range `[lo, m)`. -/
def argmaxFrom (g : ℕ → ℚ) (lo m : ℕ) : ℕ :=
  argMaxAux g (List.range' (lo + 1) (m - lo - 1)) lo

/-- Model of `np.argmin(g)` over the index range `[0, m)`. -/
def argminAll (g : ℕ → ℚ) (m : ℕ) : ℕ :=
  argMinAux g (List.range' 1 (m - 1)) 0

/-- External numpy / math primitives used by the spectral code, abstracted:
`fftMag v i` is `|np.fft.rfft(v)[i]|` for the (windowed) signal `v`,
`hannW n i` and `hammW n i` are `np.hanning(n)[i]` and `np.hamming(n)[i]`,
`sqrtQ` is `np.sqrt`, and `log10` is `np.log10`. -/
structure SpectralPrims where
  fftMag : List ℚ → ℕ → ℚ
  hannW : ℕ → ℕ → ℚ
  hammW : ℕ → ℕ → ℚ
  sqrtQ : ℚ → ℚ
  log10 : ℚ → ℚ

/-- Window-coefficient dispatch of `thd_fft` (`dsp.py` lines 40-45). -/
def windowCoeff (P : SpectralPrims) (window : String) (n : ℕ) : ℕ → ℚ :=
  if window = "hann" then P.hannW n
  else if window = "hamming" then P.hammW n
  else fun _ => 1

/-- Elementwise application of the window to the signal (`v * w`). -/
def windowed (w : ℕ → ℚ) (v : List ℚ) : List ℚ :=
  v.mapIdx fun i x => x * w i

/-- Fundamental-bin selection of `thd_fft` (`dsp.py` lines 50-55): with no
hint, or a non-positive hint, the first maximum-magnitude bin excluding
DC; with a positive hint the bin nearest the hint, falling back to the
max-magnitude rule if that bin is DC. -/
def selectFund (mag f : ℕ → ℚ) (m : ℕ) (f0 : Option ℚ) : ℕ :=
  match f0 with
  | none => argmaxFrom mag 1 m
  | some h =>
    if h ≤ 0 then argmaxFrom mag 1 m
    else
      let i := argminAll (fun j => |f j - h|) m
      if i = 0 then argmaxFrom mag 1 m else i

/-- The FFT bin nearest a target frequency (`np.argmin(np.abs(f - target))`). -/
def nearestBin (f : ℕ → ℚ) (m : ℕ) (target : ℚ) : ℕ :=
  argminAll (fun j => |f j - target|) m

/-- Harmonic-energy accumulation loop of `thd_fft` (`dsp.py` lines 59-67):
for each harmonic order `k` in the given list, stop at the first `k`
whose target `k·f0` exceeds the top frequency `f (m-1)`; otherwise add the
squared magnitude of the nearest bin, skipping DC or out-of-range bins. -/
def harmTerms (mag f : ℕ → ℚ) (m : ℕ) (fidx : ℚ) : List ℕ → ℚ
  | [] => 0
  | k :: rest =>
    if f (m - 1) < (k : ℚ) * fidx then 0
    else
      (if nearestBin f m ((k : ℚ) * fidx) = 0 ∨ m ≤ nearestBin f m ((k : ℚ) * fidx) then 0
       else mag (nearestBin f m ((k : ℚ) * fidx)) ^ 2) +
      harmTerms mag f m fidx rest

/-- The harmonic orders visited by the loop: `range(2, max(2, int(nharm)) + 1)`. -/
def harmKs (nharm : ℤ) : List ℕ := List.range' 2 ((max 2 nharm).toNat - 1)

/-- Model of `thd_fft` (`amp_benchkit/dsp.py` lines 30-69).  Python default
arguments are `nharm = 10`, `window = 'hann'`.  The function is total: every
failure path of the source returns NaN sentinels rather than raising. -/
def thd_fft (P : SpectralPrims) (t v : List ℚ) (f0 : Option ℚ)
    (nharm : ℤ) (window : String) : EF × EF × EF :=
  let n := v.length
  if n < 16 then (.nan, .nan, .nan)
  else
    let dt := sampleInterval t n
    let mag := P.fftMag (windowed (windowCoeff P window n) v)
    let f := rfftfreq n dt
    let m := rfftLen n
    let idx := selectFund mag f m f0
    let fund := mag idx
    if fund ≤ 0 then (.nan, .val (f idx), .val 0)
    else
      (.val (P.sqrtQ (harmTerms mag f m (f idx) (harmKs nharm)) / fund),
       .val (f idx), .val fund)

/-- Crossing scan of `find_knees` (`dsp.py` lines 86-107): walk the index
list keeping the previous point; at the first adjacent pair straddling
`target` return the linearly interpolated crossing frequency (or the
current frequency when the pair has equal dB); NaN if no pair straddles. -/
def kneeScanAux (target : ℚ) (fv adB : ℕ → ℚ) : List ℕ → ℚ → ℚ → EF
  | [], _, _ => .nan
  | i :: rest, prevF, prevDb =>
    let curF := fv i
    let curDb := adB i
    if (target ≤ prevDb ∧ curDb ≤ target) ∨ (prevDb ≤ target ∧ target ≤ curDb) then
      if curDb ≠ prevDb then
        .val (prevF + (target - prevDb) / (curDb - prevDb) * (curF - prevF))
      else .val curF
    else kneeScanAux target fv adB rest curF curDb

/-- Reference-index selection of `find_knees` (`dsp.py` lines 75-78):
`ref_mode = 'freq'` picks the sample nearest `ref_hz`; anything else picks
the first global amplitude maximum. -/
def kneeRefIdx (fv av : ℕ → ℚ) (m : ℕ) (refMode : String) (refHz : ℚ) : ℕ :=
  if refMode = "freq" then argminAll (fun j => |fv j - refHz|) m
  else argmaxFrom av 0 m

/-- Model of `find_knees` (`amp_benchkit/dsp.py` lines 71-108).  Python
defaults are `ref_mode = 'max'`, `ref_hz = 1000.0`, `drop_db = 3.0`. -/
def find_knees (P : SpectralPrims) (freqs amps : List ℚ) (refMode : String)
    (refHz dropDb : ℚ) : EF × EF × EF × EF :=
  let m := freqs.length
  if freqs.length ≠ amps.length ∨ m < 2 then (.nan, .nan, .nan, .nan)
  else
    let fv := fun i => freqs.getD i 0
    let av := fun i => amps.getD i 0
    let idx := kneeRefIdx fv av m refMode refHz
    if av idx ≤ 0 then (.nan, .nan, .nan, .nan)
    else
      let refDb := 20 * P.log10 (av idx)
      let target := refDb - dropDb
      let adB := fun j => 20 * P.log10 (max (av j) (1 / 10 ^ 18))
      (kneeScanAux target fv adB (List.range' 1 idx) (fv 0) (adB 0),
       kneeScanAux target fv adB (List.range' (idx + 1) (m - (idx + 1))) (fv idx) (adB idx),
       .val (av idx), .val refDb)

/-- External math primitives of the plan generator, abstracted: `pexp` is
`math.exp` and `plog` is `math.log`. -/
structure PlanPrims where
  pexp : ℚ → ℚ
  plog : ℚ → ℚ

/-- Replace the head of a list (`out[0] = x`). -/
def setHead : List ℚ → ℚ → List ℚ
  | [], _ => []
  | _ :: rest, x => x :: rest

/-- Replace the last element of a list (`out[-1] = x`). -/
def setLast (l : List ℚ) (x : ℚ) : List ℚ :=
  match l with
  | [] => []
  | _ :: _ => l.dropLast ++ [x]

/-- Final rounding and endpoint forcing of `build_freq_points`
(`automation.py` lines 33-36). -/
def finishPlan (start stop : ℚ) (vals : List ℚ) : List ℚ :=
  setLast (setHead (vals.map round6) (round6 start)) (round6 stop)

/-- Model of `build_freq_points` (`amp_benchkit/automation.py` lines
17-37).  A raised `ValueError` is modelled as `Except.error` carrying the
source's message. -/
def build_freq_points (P : PlanPrims) (start stop : ℚ) (points : ℕ)
    (mode : String) : Except String (List ℚ) :=
  if points ≤ 1 then .error "points must be >= 2"
  else if isLogMode mode then
    if start ≤ 0 ∨ stop ≤ 0 then .error "Log sweep requires positive start/stop"
    else
      .ok (finishPlan start stop ((List.range points).map fun (i : ℕ) =>
        P.pexp (P.plog start +
          (P.plog stop - P.plog start) * (i : ℚ) / ((points - 1 : ℕ) : ℚ))))
  else
    .ok (finishPlan start stop ((List.range points).map fun (i : ℕ) =>
      start + (stop - start) / ((points - 1 : ℕ) : ℚ) * (i : ℚ)))

/-- Injected callbacks of `sweep_audio_kpis` (`automation.py` lines 81-98).
`fy_apply` and `scope_capture_calibrated` are Python callables that may be
stateful; since the orchestrator calls each exactly once per plan
frequency, in plan order, they are modelled as functions of the loop index
(with `fy_apply` also receiving the frequency).  A raised exception is an
`Except.error`.  `dsp_find_knees` is called outside the per-point
`try/except`, so it is modelled as total here. -/
structure SweepCallbacks where
  fyApply : ℕ → ℚ → Except String Unit
  capture : ℕ → Except String (List ℚ × List ℚ)
  dspVrms : List ℚ → Except String EF
  dspVpp : List ℚ → Except String EF
  dspThd : List ℚ → List ℚ → ℚ → Except String (EF × EF × EF)
  dspKnees : List ℚ → List EF → String → ℚ → ℚ → EF × EF × EF × EF

/-- The NaN-valued row emitted for a failed sweep point (`automation.py`
lines 116-118): NaN rms and peak-to-peak, NaN THD when THD was requested
and `None` otherwise. -/
def nanRow (f : ℚ) (doThd : Bool) : ℚ × EF × EF × Option EF :=
  (f, .nan, .nan, if doThd then some .nan else none)

/-- One iteration of the sweep loop (`automation.py` lines 106-119):
returns the row appended to `rows` and, when reached, the rms value
appended to `vrms_vals`.  The source appends to `vrms_vals` after rms and
peak-to-peak succeed but before THD is computed, so a THD exception yields
a NaN row while the rms value is still recorded. -/
def sweepStep (cb : SweepCallbacks) (doThd : Bool) (i : ℕ) (f : ℚ) :
    (ℚ × EF × EF × Option EF) × Option EF :=
  match cb.fyApply i f with
  | .error _ => (nanRow f doThd, none)
  | .ok _ =>
    match cb.capture i with
    | .error _ => (nanRow f doThd, none)
    | .ok (t, v) =>
      match cb.dspVrms v with
      | .error _ => (nanRow f doThd, none)
      | .ok vr =>
        match cb.dspVpp v with
        | .error _ => (nanRow f doThd, none)
        | .ok pp =>
          if doThd then
            match cb.dspThd t v f with
            | .error _ => ((f, .nan, .nan, some .nan), some vr)
            | .ok (thd, _, _) => ((f, vr, pp, some thd), some vr)
          else ((f, vr, pp, none), some vr)

/-- Whether the iteration for frequency `f` at loop index `i` hits the
`except` branch (some callback raised). -/
def stepRaises (cb : SweepCallbacks) (doThd : Bool) (i : ℕ) (f : ℚ) : Bool :=
  match cb.fyApply i f with
  | .error _ => true
  | .ok _ =>
    match cb.capture i with
    | .error _ => true
    | .ok (t, v) =>
      match cb.dspVrms v with
      | .error _ => true
      | .ok _ =>
        match cb.dspVpp v with
        | .error _ => true
        | .ok _ =>
          doThd && (match cb.dspThd t v f with
            | .error _ => true
            | .ok _ => false)

/-- Model of `(ref_mode or "max").lower()` (`automation.py` line 123):
`None` and the empty string are falsy and become `"max"`. -/
def refModeEff (refMode : Option String) : String :=
  String.mk ((match refMode with
    | none => "max"
    | some s => if s = "" then "max" else s).data.map lowerChar)

/-- Model of `ref_hz or 1000.0` (`automation.py` line 124): `None` and
`0.0` are falsy and become `1000.0`. -/
def refHzEff (refHz : Option ℚ) : ℚ :=
  match refHz with
  | none => 1000
  | some x => if x = 0 then 1000 else x

/-- The `vrms_vals` accumulator after the loop: rms values of exactly the
iterations that reached the append, in plan order. -/
def successVrms (cb : SweepCallbacks) (doThd : Bool) (freqs : List ℚ) : List EF :=
  List.filterMap (fun p => (sweepStep cb doThd p.1 p.2).2) freqs.enum

/-- Result of a sweep: the per-frequency rows and the optional knee tuple. -/
structure SweepResult where
  rows : List (ℚ × EF × EF × Option EF)
  knees : Option (EF × EF × EF × EF)
deriving DecidableEq

/-- Model of `sweep_audio_kpis` (`amp_benchkit/automation.py` lines
81-126).  The function is total: the per-point `try/except` of the source
catches every callback exception, so no exception propagates. -/
def sweep_audio_kpis (cb : SweepCallbacks) (freqs : List ℚ)
    (doThd doKnees : Bool) (refMode : Option String) (refHz : Option ℚ)
    (dropDb : ℚ) : SweepResult :=
  let vrmsVals := successVrms cb doThd freqs
  { rows := freqs.enum.map fun p => (sweepStep cb doThd p.1 p.2).1
    knees :=
      if doKnees ∧ vrmsVals ≠ [] then
        some (cb.dspKnees freqs vrmsVals (refModeEff refMode) (refHzEff refHz) dropDb)
      else none }

namespace UnifiedGui

/-- Model of the duplicate `thd_fft` in `unified_gui_layout.py` (lines
398-451); its body is line-for-line the code of `amp_benchkit/dsp.py`
with only comments differing. -/
def thd_fft (P : SpectralPrims) (t v : List ℚ) (f0 : Option ℚ)
    (nharm : ℤ) (window : String) : EF × EF × EF :=
  let n := v.length
  if n < 16 then (.nan, .nan, .nan)
  else
    let dt := sampleInterval t n
    let mag := P.fftMag (windowed (windowCoeff P window n) v)
    let f := rfftfreq n dt
    let m := rfftLen n
    let idx := selectFund mag f m f0
    let fund := mag idx
    if fund ≤ 0 then (.nan, .val (f idx), .val 0)
    else
      (.val (P.sqrtQ (harmTerms mag f m (f idx) (harmKs nharm)) / fund),
       .val (f idx), .val fund)

/-- Model of the duplicate `find_knees` in `unified_gui_layout.py` (lines
453-504); its body is line-for-line the code of `amp_benchkit/dsp.py`
with only comments differing. -/
def find_knees (P : SpectralPrims) (freqs amps : List ℚ) (refMode : String)
    (refHz dropDb : ℚ) : EF × EF × EF × EF :=
  let m := freqs.length
  if freqs.length ≠ amps.length ∨ m < 2 then (.nan, .nan, .nan, .nan)
  else
    let fv := fun i => freqs.getD i 0
    let av := fun i => amps.getD i 0
    let idx := kneeRefIdx fv av m refMode refHz
    if av idx ≤ 0 then (.nan, .nan, .nan, .nan)
    else
      let refDb := 20 * P.log10 (av idx)
      let target := refDb - dropDb
      let adB := fun j => 20 * P.log10 (max (av j) (1 / 10 ^ 18))
      (kneeScanAux target fv adB (List.range' 1 idx) (fv 0) (adB 0),
       kneeScanAux target fv adB (List.range' (idx + 1) (m - (idx + 1))) (fv idx) (adB idx),
       .val (av idx), .val refDb)

end UnifiedGui


/-- Whether the crossing scan fires anywhere along the given index list:
the straddle test of `kneeScanAux`, with the previous dB value threaded
exactly as the scan threads it. -/
def scanCross (target : ℚ) (adB : ℕ → ℚ) : List ℕ → ℚ → Bool
  | [], _ => false
  | i :: rest, prevDb =>
    decide ((target ≤ prevDb ∧ adB i ≤ target) ∨ (prevDb ≤ target ∧ target ≤ adB i)) ||
    scanCross target adB rest (adB i)

/-! ### Concrete fixtures used by witness and counterexample theorems -/

/-- Spectral primitives whose FFT magnitude is 5 at bin 3, 1 at bin 6 and
0 elsewhere, with trivial windows, identity square root and zero log10. -/
def primsA : SpectralPrims :=
  ⟨fun _ j => if j = 3 then 5 else if j = 6 then 1 else 0,
   fun _ _ => 1, fun _ _ => 1, id, fun _ => 0⟩

/-- Spectral primitives whose FFT magnitude is 5 at bin 3 and 1 elsewhere. -/
def primsB : SpectralPrims :=
  ⟨fun _ j => if j = 3 then 5 else 1, fun _ _ => 1, fun _ _ => 1, id, fun _ => 0⟩

/-- Spectral primitives with identically zero FFT magnitude. -/
def primsZero : SpectralPrims :=
  ⟨fun _ _ => 0, fun _ _ => 1, fun _ _ => 1, id, fun _ => 0⟩

/-- A base-10 logarithm stand-in that satisfies `log10 1 = 0` and
`20·log10(7/10) ≤ -3`, the two facts the knee witness needs. -/
def log10Fake : ℚ → ℚ := fun q => if q = 1 then 0 else -1/5

/-- Spectral primitives built on `log10Fake`. -/
def primsKnee : SpectralPrims :=
  ⟨fun _ _ => 0, fun _ _ => 1, fun _ _ => 1, id, log10Fake⟩

/-- A 16-sample constant waveform. -/
def v16 : List ℚ := List.replicate 16 1

/-- Callbacks whose capture raises on every loop index except 0 and whose
knee callback reports the lengths of the two series it receives. -/
def cbFailAt1 : SweepCallbacks :=
  ⟨fun _ _ => .ok (),
   fun i => if i = 0 then .ok ([0], [1]) else .error "capture failed",
   fun _ => .ok (.val 1), fun _ => .ok (.val 2),
   fun _ _ _ => .ok (.val 0, .val 0, .val 0),
   fun fs amps _ _ _ => (.val fs.length, .val amps.length, .nan, .nan)⟩

/-- Callbacks whose THD computation raises on every call while stimulus,
capture, rms and peak-to-peak all succeed. -/
def cbThdFail : SweepCallbacks :=
  ⟨fun _ _ => .ok (), fun _ => .ok ([0], [1]),
   fun _ => .ok (.val 1), fun _ => .ok (.val 2),
   fun _ _ _ => .error "thd failed",
   fun fs amps _ _ _ => (.val fs.length, .val amps.length, .nan, .nan)⟩

/-- Always-succeeding callbacks whose knee callback reports the drop-dB
value it receives. -/
def cbNegDrop : SweepCallbacks :=
  ⟨fun _ _ => .ok (), fun _ => .ok ([0], [1]),
   fun _ => .ok (.val 1), fun _ => .ok (.val 1),
   fun _ _ _ => .ok (.val 0, .val 0, .val 0),
   fun _ _ _ _ dd => (.val dd, .nan, .nan, .nan)⟩

/-! ### Generic properties of the first-extremum scans -/

theorem argMaxAux_mem (g : ℕ → ℚ) (l : List ℕ) (b : ℕ) :
    argMaxAux g l b ∈ b :: l := by
  induction l generalizing b with
  | nil => simp [argMaxAux]
  | cons j rest ih =>
    simp only [argMaxAux]
    by_cases hc : g b < g j
    · rw [if_pos hc]
      rcases List.mem_cons.mp (ih j) with h1 | h1
      · simp [h1]
      · simp [List.mem_cons.mpr (Or.inr h1)]
    · rw [if_neg hc]
      rcases List.mem_cons.mp (ih b) with h1 | h1
      · simp [h1]
      · simp [List.mem_cons.mpr (Or.inr h1)]

theorem argMaxAux_le (g : ℕ → ℚ) (l : List ℕ) :
    ∀ b, ∀ j ∈ b :: l, g j ≤ g (argMaxAux g l b) := by
  induction l with
  | nil =>
    intro b j hj
    rcases List.mem_cons.mp hj with h | h
    · rw [h]; simp [argMaxAux]
    · simp at h
  | cons i rest ih =>
    intro b j hj
    simp only [argMaxAux]
    by_cases hc : g b < g i
    · rw [if_pos hc]
      rcases List.mem_cons.mp hj with h | h
      · rw [h]; exact le_trans hc.le (ih i i (List.mem_cons_self i rest))
      · exact ih i j h
    · rw [if_neg hc]
      rcases List.mem_cons.mp hj with h | h
      · rw [h]; exact ih b b (List.mem_cons_self b rest)
      · rcases List.mem_cons.mp h with h' | h'
        · rw [h']; exact le_trans (not_lt.mp hc) (ih b b (List.mem_cons_self b rest))
        · exact ih b j (List.mem_cons.mpr (Or.inr h'))

theorem argMinAux_mem (g : ℕ → ℚ) (l : List ℕ) (b : ℕ) :
    argMinAux g l b ∈ b :: l := by
  induction l generalizing b with
  | nil => simp [argMinAux]
  | cons j rest ih =>
    simp only [argMinAux]
    by_cases hc : g j < g b
    · rw [if_pos hc]
      rcases List.mem_cons.mp (ih j) with h1 | h1
      · simp [h1]
      · simp [List.mem_cons.mpr (Or.inr h1)]
    · rw [if_neg hc]
      rcases List.mem_cons.mp (ih b) with h1 | h1
      · simp [h1]
      · simp [List.mem_cons.mpr (Or.inr h1)]

theorem argMinAux_le (g : ℕ → ℚ) (l : List ℕ) :
    ∀ b, ∀ j ∈ b :: l, g (argMinAux g l b) ≤ g j := by
  induction l with
  | nil =>
    intro b j hj
    rcases List.mem_cons.mp hj with h | h
    · rw [h]; simp [argMinAux]
    · simp at h
  | cons i rest ih =>
    intro b j hj
    simp only [argMinAux]
    by_cases hc : g i < g b
    · rw [if_pos hc]
      rcases List.mem_cons.mp hj with h | h
      · rw [h]; exact le_trans (ih i i (List.mem_cons_self i rest)) hc.le
      · exact ih i j h
    · rw [if_neg hc]
      rcases List.mem_cons.mp hj with h | h
      · rw [h]; exact ih b b (List.mem_cons_self b rest)
      · rcases List.mem_cons.mp h with h' | h'
        · rw [h']; exact le_trans (ih b b (List.mem_cons_self b rest)) (not_lt.mp hc)
        · exact ih b j (List.mem_cons.mpr (Or.inr h'))

theorem argMinAux_eq (g : ℕ → ℚ) (l : List ℕ) :
    ∀ b j₀, j₀ ∈ b :: l → (∀ j ∈ b :: l, j ≠ j₀ → g j₀ < g j) →
      argMinAux g l b = j₀ := by
  induction l with
  | nil =>
    intro b j₀ hmem _
    rcases List.mem_cons.mp hmem with h | h
    · rw [argMinAux, h]
    · simp at h
  | cons i rest ih =>
    intro b j₀ hmem hstrict
    simp only [argMinAux]
    by_cases hc : g i < g b
    · rw [if_pos hc]
      have hb : b ≠ j₀ := by
        intro hbj
        rcases eq_or_ne i j₀ with hij | hij
        · rw [hbj, ← hij] at hc; exact lt_irrefl _ hc
        · have := hstrict i (List.mem_cons.mpr (Or.inr (List.mem_cons_self i rest))) hij
          rw [hbj] at hc
          exact absurd this (not_lt.mpr hc.le)
      have hmem' : j₀ ∈ i :: rest := by
        rcases List.mem_cons.mp hmem with h | h
        · exact absurd h.symm hb
        · exact h
      exact ih i j₀ hmem' fun j hj hne =>
        hstrict j (List.mem_cons.mpr (Or.inr hj)) hne
    · rw [if_neg hc]
      have hmem' : j₀ ∈ b :: rest := by
        rcases List.mem_cons.mp hmem with h | h
        · rw [h]; exact List.mem_cons_self b rest
        · rcases List.mem_cons.mp h with h' | h'
          · rcases eq_or_ne b j₀ with hb | hb
            · rw [← hb]; exact List.mem_cons_self b rest
            · have hlt := hstrict b (List.mem_cons_self b (i :: rest)) hb
              exact absurd (h' ▸ hlt) hc
          · exact List.mem_cons.mpr (Or.inr h')
      exact ih b j₀ hmem' fun j hj hne => by
        rcases List.mem_cons.mp hj with h' | h'
        · rw [h']
          exact hstrict b (List.mem_cons_self b (i :: rest)) (h' ▸ hne)
        · exact hstrict j (List.mem_cons.mpr (Or.inr (List.mem_cons.mpr (Or.inr h')))) hne

theorem argminAll_lt (g : ℕ → ℚ) (m : ℕ) (hm : 0 < m) : argminAll g m < m := by
  rw [argminAll]
  have h := argMinAux_mem g (List.range' 1 (m - 1)) 0
  rcases List.mem_cons.mp h with h1 | h1
  · rw [h1]; exact hm
  · have := (List.mem_range'_1.mp h1).2
    omega

theorem argminAll_le (g : ℕ → ℚ) (m : ℕ) :
    ∀ j, j < m → g (argminAll g m) ≤ g j := by
  intro j hj
  rw [argminAll]
  apply argMinAux_le g (List.range' 1 (m - 1)) 0
  rcases Nat.eq_zero_or_pos j with h | hjpos
  · rw [h]; exact List.mem_cons_self 0 _
  · exact List.mem_cons.mpr (Or.inr (List.mem_range'_1.mpr ⟨hjpos, by omega⟩))

theorem argminAll_eq (g : ℕ → ℚ) (m j₀ : ℕ) (hj : j₀ < m)
    (hstrict : ∀ j, j < m → j ≠ j₀ → g j₀ < g j) : argminAll g m = j₀ := by
  rw [argminAll]
  apply argMinAux_eq g (List.range' 1 (m - 1)) 0 j₀
  · rcases Nat.eq_zero_or_pos j₀ with h | hpos
    · rw [h]; exact List.mem_cons_self 0 _
    · exact List.mem_cons.mpr (Or.inr (List.mem_range'_1.mpr ⟨hpos, by omega⟩))
  · intro j hjm hne
    apply hstrict j ?_ hne
    rcases List.mem_cons.mp hjm with h1 | h1
    · rw [h1]; exact lt_of_le_of_lt (Nat.zero_le _) hj
    · have := (List.mem_range'_1.mp h1).2
      omega

theorem argmaxFrom_one_bounds (g : ℕ → ℚ) (m : ℕ) (hm : 2 ≤ m) :
    1 ≤ argmaxFrom g 1 m ∧ argmaxFrom g 1 m < m := by
  rw [argmaxFrom]
  have h := argMaxAux_mem g (List.range' (1 + 1) (m - 1 - 1)) 1
  rcases List.mem_cons.mp h with h1 | h1
  · rw [h1]; omega
  · have := List.mem_range'_1.mp h1
    omega

theorem argmaxFrom_one_le (g : ℕ → ℚ) (m : ℕ) :
    ∀ j, 1 ≤ j → j < m → g j ≤ g (argmaxFrom g 1 m) := by
  intro j h1 h2
  rw [argmaxFrom]
  apply argMaxAux_le g (List.range' (1 + 1) (m - 1 - 1)) 1
  rcases eq_or_lt_of_le h1 with h | hgt
  · rw [← h]; exact List.mem_cons_self 1 _
  · exact List.mem_cons.mpr (Or.inr (List.mem_range'_1.mpr ⟨hgt, by omega⟩))

/-! ### Properties of the rounding used by the plan generator -/

theorem roundHalfEven_ge_floor (x : ℚ) : ⌊x⌋ ≤ roundHalfEven x := by
  simp only [roundHalfEven]
  split_ifs <;> omega

theorem roundHalfEven_le_floor_add_one (x : ℚ) : roundHalfEven x ≤ ⌊x⌋ + 1 := by
  simp only [roundHalfEven]
  split_ifs <;> omega

theorem roundHalfEven_mono : Monotone roundHalfEven := by
  intro x y hxy
  rcases eq_or_ne (⌊x⌋ : ℤ) ⌊y⌋ with hf | hf
  · have hfr : x - (⌊y⌋ : ℚ) ≤ y - (⌊y⌋ : ℚ) := by linarith
    simp only [roundHalfEven, hf]
    split_ifs <;> first | omega | (exfalso; linarith)
  · have hlt : ⌊x⌋ < ⌊y⌋ := lt_of_le_of_ne (Int.floor_le_floor hxy) hf
    have h1 := roundHalfEven_le_floor_add_one x
    have h2 := roundHalfEven_ge_floor y
    omega

theorem round6_mono : Monotone round6 := by
  intro x y h
  unfold round6
  have h1 : x * 10 ^ 6 ≤ y * 10 ^ 6 :=
    mul_le_mul_of_nonneg_right h (by norm_num)
  have h2 : ((roundHalfEven (x * 10 ^ 6) : ℤ) : ℚ) ≤ ((roundHalfEven (y * 10 ^ 6) : ℤ) : ℚ) := by
    exact_mod_cast roundHalfEven_mono h1
  exact (div_le_div_right (by norm_num)).mpr h2

/-! ### Structure of the produced plan list -/

theorem setHead_length (l : List ℚ) (x : ℚ) : (setHead l x).length = l.length := by
  cases l <;> simp [setHead]

theorem setLast_length (l : List ℚ) (x : ℚ) : (setLast l x).length = l.length := by
  cases l with
  | nil => simp [setLast]
  | cons a t =>
    simp only [setLast, List.length_append, List.length_dropLast, List.length_cons]
    simp

theorem setHead_head? (l : List ℚ) (x : ℚ) (h : l ≠ []) :
    (setHead l x).head? = some x := by
  cases l with
  | nil => exact absurd rfl h
  | cons a t => simp [setHead]

theorem setLast_getLast? (l : List ℚ) (x : ℚ) (h : l ≠ []) :
    (setLast l x).getLast? = some x := by
  cases l with
  | nil => exact absurd rfl h
  | cons a t => simp [setLast, List.getLast?_concat]

theorem setLast_head? (l : List ℚ) (x : ℚ) (h : 2 ≤ l.length) :
    (setLast l x).head? = l.head? := by
  cases l with
  | nil => simp at h
  | cons a t =>
    cases t with
    | nil => simp at h
    | cons b t2 => simp [setLast]

theorem finishPlan_length (s e : ℚ) (vals : List ℚ) :
    (finishPlan s e vals).length = vals.length := by
  simp [finishPlan, setLast_length, setHead_length]

theorem finishPlan_head? (s e : ℚ) (vals : List ℚ) (h : 2 ≤ vals.length) :
    (finishPlan s e vals).head? = some (round6 s) := by
  rw [finishPlan, setLast_head?, setHead_head?]
  · intro hnil
    have hlen := congrArg List.length hnil
    simp only [List.length_map, List.length_nil] at hlen
    omega
  · rw [setHead_length, List.length_map]
    exact h

theorem finishPlan_getLast? (s e : ℚ) (vals : List ℚ) (h : vals ≠ []) :
    (finishPlan s e vals).getLast? = some (round6 e) := by
  rw [finishPlan, setLast_getLast?]
  intro hnil
  have hlen := congrArg List.length hnil
  rw [setHead_length, List.length_map] at hlen
  simp only [List.length_nil, List.length_eq_zero] at hlen
  exact h hlen

theorem setHead_subset (l : List ℚ) (x y : ℚ) (h : y ∈ setHead l x) :
    y = x ∨ y ∈ l := by
  cases l with
  | nil => simp [setHead] at h
  | cons a t =>
    simp only [setHead, List.mem_cons] at h
    rcases h with h | h
    · exact Or.inl h
    · exact Or.inr (List.mem_cons.mpr (Or.inr h))

theorem setLast_subset (l : List ℚ) (x y : ℚ) (h : y ∈ setLast l x) :
    y = x ∨ y ∈ l := by
  cases l with
  | nil => simp [setLast] at h
  | cons a t =>
    simp only [setLast, List.mem_append, List.mem_singleton] at h
    rcases h with h | h
    · exact Or.inr (List.dropLast_subset _ h)
    · exact Or.inl h

theorem finishPlan_mem (s e : ℚ) (vals : List ℚ) (x : ℚ)
    (h : x ∈ finishPlan s e vals) :
    x = round6 s ∨ x = round6 e ∨ ∃ v ∈ vals, x = round6 v := by
  rw [finishPlan] at h
  rcases setLast_subset _ _ _ h with h1 | h1
  · exact Or.inr (Or.inl h1)
  · rcases setHead_subset _ _ _ h1 with h2 | h2
    · exact Or.inl h2
    · obtain ⟨v, hv, hvx⟩ := List.mem_map.mp h2
      exact Or.inr (Or.inr ⟨v, hv, hvx.symm⟩)

theorem setHead_eq_self (l : List ℚ) (x : ℚ) (h : l.head? = some x) :
    setHead l x = l := by
  cases l with
  | nil => simp at h
  | cons a t =>
    simp only [List.head?_cons, Option.some.injEq] at h
    rw [setHead, h]

theorem setLast_eq_self (l : List ℚ) (x : ℚ) (h : l.getLast? = some x) :
    setLast l x = l := by
  cases l with
  | nil => simp at h
  | cons a t =>
    have hne : (a :: t) ≠ [] := by simp
    have hx : (a :: t).getLast hne = x := by
      rw [List.getLast?_eq_getLast _ hne] at h
      exact Option.some.injEq _ _ |>.mp h
    rw [setLast, ← hx]
    exact List.dropLast_append_getLast hne

theorem finishPlan_eq_map (s e : ℚ) (vals : List ℚ)
    (hh : vals.head? = some s) (hl : vals.getLast? = some e) :
    finishPlan s e vals = vals.map round6 := by
  rw [finishPlan, setHead_eq_self, setLast_eq_self]
  · rw [List.getLast?_map, hl]
    rfl
  · rw [List.head?_map, hh]
    rfl

theorem finishPlan_pairwise (s e : ℚ) (vals : List ℚ)
    (hmono : List.Pairwise (· ≤ ·) vals)
    (hh : vals.head? = some s) (hl : vals.getLast? = some e) :
    List.Pairwise (· ≤ ·) (finishPlan s e vals) := by
  rw [finishPlan_eq_map s e vals hh hl]
  exact hmono.map round6 fun a b hab => round6_mono hab

theorem finishPlan_pairwise_ge (s e : ℚ) (vals : List ℚ)
    (hmono : List.Pairwise (· ≥ ·) vals)
    (hh : vals.head? = some s) (hl : vals.getLast? = some e) :
    List.Pairwise (· ≥ ·) (finishPlan s e vals) := by
  rw [finishPlan_eq_map s e vals hh hl]
  exact hmono.map round6 fun a b hab => round6_mono hab

theorem isLogMode_linear : isLogMode "linear" = false := by decide

theorem isLogMode_log : isLogMode "log" = true := by decide

/-- Shape of every successful run of the plan generator: at least two
points, and the output is the rounded, endpoint-forced version of the
branch-specific interpolation. -/
theorem build_freq_points_ok (P : PlanPrims) (s e : ℚ) (p : ℕ) (mode : String)
    (out : List ℚ) (h : build_freq_points P s e p mode = .ok out) :
    2 ≤ p ∧ ∃ vals : List ℚ, vals.length = p ∧ out = finishPlan s e vals ∧
      ((isLogMode mode = true ∧ 0 < s ∧ 0 < e ∧
          vals = (List.range p).map fun (i : ℕ) =>
            P.pexp (P.plog s + (P.plog e - P.plog s) * (i : ℚ) / ((p - 1 : ℕ) : ℚ))) ∨
       (isLogMode mode = false ∧
          vals = (List.range p).map fun (i : ℕ) =>
            s + (e - s) / ((p - 1 : ℕ) : ℚ) * (i : ℚ))) := by
  unfold build_freq_points at h
  split_ifs at h with h1 h2 h3
  · refine ⟨by omega, _, ?_, ?_, Or.inl ⟨h2, ?_, ?_, rfl⟩⟩
    · simp
    · injection h with h4
      exact h4.symm
    · rcases not_or.mp h3 with ⟨hs, _⟩; exact not_le.mp hs
    · rcases not_or.mp h3 with ⟨_, he⟩; exact not_le.mp he
  · refine ⟨by omega, _, ?_, ?_, Or.inr ⟨Bool.not_eq_true _ |>.mp h2, rfl⟩⟩
    · simp
    · injection h with h4
      exact h4.symm

/-- C4: for every start, stop, count ≥ 2 and mode on which the plan
generator succeeds, `build_freq_points` returns exactly `count` values,
each of them rounded to six decimal places (an integer multiple of
10⁻⁶), with first element exactly `round6 start` and last element exactly
`round6 stop`. -/
theorem build_freq_points_endpoints (P : PlanPrims) (s e : ℚ) (p : ℕ)
    (mode : String) (out : List ℚ)
    (h : build_freq_points P s e p mode = .ok out) :
    out.length = p ∧ out.head? = some (round6 s) ∧
    out.getLast? = some (round6 e) ∧
    ∀ x ∈ out, ∃ z : ℤ, x = (z : ℚ) / 10 ^ 6 := by
  obtain ⟨hp, vals, hlen, hout, -⟩ := build_freq_points_ok P s e p mode out h
  have hlen2 : 2 ≤ vals.length := by omega
  have hne : vals ≠ [] := by
    intro hnil
    rw [hnil] at hlen2
    simp at hlen2
  refine ⟨?_, ?_, ?_, ?_⟩
  · rw [hout, finishPlan_length, hlen]
  · rw [hout, finishPlan_head? s e vals hlen2]
  · rw [hout, finishPlan_getLast? s e vals hne]
  · intro x hx
    rw [hout] at hx
    rcases finishPlan_mem s e vals x hx with h1 | h1 | ⟨v, -, h1⟩ <;>
      exact ⟨_, by rw [h1, round6]⟩

/-- Witness for C4 at a concrete input: a three-point linear plan from 1
to 2 evaluates to `[1, 3/2, 2]` and the theorem applies to it. -/
theorem build_freq_points_endpoints_witness :
    build_freq_points ⟨id, id⟩ 1 2 3 "linear" = Except.ok [1, 3/2, 2] ∧
    ([1, 3/2, 2] : List ℚ).length = 3 ∧
    ([1, 3/2, 2] : List ℚ).head? = some (round6 1) ∧
    ([1, 3/2, 2] : List ℚ).getLast? = some (round6 2) ∧
    ∀ x ∈ ([1, 3/2, 2] : List ℚ), ∃ z : ℤ, x = (z : ℚ) / 10 ^ 6 :=
  have h : build_freq_points ⟨id, id⟩ 1 2 3 "linear" = Except.ok [1, 3/2, 2] := by
    norm_num [build_freq_points, isLogMode_linear, finishPlan, setHead, setLast,
      List.range_succ, round6, roundHalfEven]
  ⟨h, build_freq_points_endpoints ⟨id, id⟩ 1 2 3 "linear" [1, 3/2, 2] h⟩

/-- C5 counterexample: a linear plan over a tiny span succeeds with
`stop > start`, yet after 6-decimal rounding both points collapse to `0`,
so the result is not strictly increasing. -/
theorem build_freq_points_strict_mono_cex :
    build_freq_points ⟨id, id⟩ 0 (1 / 10000000) 2 "linear" = Except.ok [0, 0] ∧
    (0 : ℚ) < 1 / 10000000 ∧ ¬ List.Pairwise (· < ·) ([0, 0] : List ℚ) := by
  refine ⟨?_, by norm_num, by simp⟩
  norm_num [build_freq_points, isLogMode_linear, finishPlan, setHead, setLast,
    List.range_succ, round6, roundHalfEven]

/-- C5 (amended): for every start, stop, count ≥ 2 and mode for which the
plan generator succeeds (with, in log mode, the monotonicity and inverse
facts that the real `exp`/`log` satisfy on positive endpoints), the
returned sequence is monotone in the requested direction — non-decreasing
when `start ≤ stop` and non-increasing when `stop ≤ start`; it need not be
strictly monotonic because 6-decimal rounding can make adjacent values
coincide. -/
theorem build_freq_points_monotone (P : PlanPrims) (s e : ℚ) (p : ℕ)
    (mode : String) (out : List ℚ)
    (hlog : isLogMode mode = true → Monotone P.pexp ∧
      P.pexp (P.plog s) = s ∧ P.pexp (P.plog e) = e ∧
      (s ≤ e → P.plog s ≤ P.plog e) ∧ (e ≤ s → P.plog e ≤ P.plog s))
    (h : build_freq_points P s e p mode = .ok out) :
    (s ≤ e → List.Pairwise (· ≤ ·) out) ∧
    (e ≤ s → List.Pairwise (· ≥ ·) out) := by
  obtain ⟨hp, vals, hlen, hout, hcase⟩ := build_freq_points_ok P s e p mode out h
  have hp0 : 0 < p := by omega
  have hp1 : (0 : ℚ) < ((p - 1 : ℕ) : ℚ) := by
    have h1 : 0 < p - 1 := by omega
    exact_mod_cast h1
  have hlast : p - 1 < p := by omega
  rw [hout]
  rcases hcase with ⟨hmode, -, -, hvals⟩ | ⟨-, hvals⟩
  · obtain ⟨hexp, hfs, hfe, hlogle, hlogge⟩ := hlog hmode
    set F : ℕ → ℚ := fun i =>
      P.pexp (P.plog s + (P.plog e - P.plog s) * (i : ℚ) / ((p - 1 : ℕ) : ℚ)) with hF
    have hF0 : F 0 = s := by
      show P.pexp (P.plog s + (P.plog e - P.plog s) * ((0 : ℕ) : ℚ) / ((p - 1 : ℕ) : ℚ)) = s
      norm_num [hfs]
    have hFlast : F (p - 1) = e := by
      show P.pexp (P.plog s + (P.plog e - P.plog s) * ((p - 1 : ℕ) : ℚ) / ((p - 1 : ℕ) : ℚ)) = e
      rw [mul_div_assoc, div_self (ne_of_gt hp1)]
      simp [hfe]
    have hh : vals.head? = some s := by
      rw [hvals, List.head?_eq_getElem?, List.getElem?_map,
        List.getElem?_range hp0]
      simp [hF0]
    have hl : vals.getLast? = some e := by
      rw [hvals, List.getLast?_eq_getElem?, List.length_map, List.length_range,
        List.getElem?_map, List.getElem?_range hlast]
      simp [hFlast]
    constructor
    · intro hse
      have hls : P.plog s ≤ P.plog e := hlogle hse
      have hmonoF : ∀ i j : ℕ, i ≤ j → F i ≤ F j := by
        intro i j hij
        apply hexp
        show P.plog s + (P.plog e - P.plog s) * (i : ℚ) / ((p - 1 : ℕ) : ℚ) ≤
          P.plog s + (P.plog e - P.plog s) * (j : ℚ) / ((p - 1 : ℕ) : ℚ)
        have hc : (i : ℚ) ≤ (j : ℚ) := by exact_mod_cast hij
        have hd : 0 ≤ P.plog e - P.plog s := by linarith
        have h2 : (P.plog e - P.plog s) * (i : ℚ) ≤ (P.plog e - P.plog s) * (j : ℚ) :=
          mul_le_mul_of_nonneg_left hc hd
        have h3 := (div_le_div_right hp1).mpr h2
        linarith
      apply finishPlan_pairwise s e vals ?_ hh hl
      rw [hvals]
      exact (List.pairwise_le_range p).map F fun a b hab => hmonoF a b hab
    · intro hes
      have hls : P.plog e ≤ P.plog s := hlogge hes
      have hantiF : ∀ i j : ℕ, i ≤ j → F j ≤ F i := by
        intro i j hij
        apply hexp
        show P.plog s + (P.plog e - P.plog s) * (j : ℚ) / ((p - 1 : ℕ) : ℚ) ≤
          P.plog s + (P.plog e - P.plog s) * (i : ℚ) / ((p - 1 : ℕ) : ℚ)
        have hc : (i : ℚ) ≤ (j : ℚ) := by exact_mod_cast hij
        have hd : P.plog e - P.plog s ≤ 0 := by linarith
        have h2 : (P.plog e - P.plog s) * (j : ℚ) ≤ (P.plog e - P.plog s) * (i : ℚ) :=
          mul_le_mul_of_nonpos_left hc hd
        have h3 := (div_le_div_right hp1).mpr h2
        linarith
      apply finishPlan_pairwise_ge s e vals ?_ hh hl
      rw [hvals]
      exact (List.pairwise_le_range p).map F fun a b hab => hantiF a b hab
  · set F : ℕ → ℚ := fun i => s + (e - s) / ((p - 1 : ℕ) : ℚ) * (i : ℚ) with hF
    have hF0 : F 0 = s := by
      show s + (e - s) / ((p - 1 : ℕ) : ℚ) * ((0 : ℕ) : ℚ) = s
      norm_num
    have hFlast : F (p - 1) = e := by
      show s + (e - s) / ((p - 1 : ℕ) : ℚ) * ((p - 1 : ℕ) : ℚ) = e
      rw [div_mul_cancel₀ _ (ne_of_gt hp1)]
      ring
    have hh : vals.head? = some s := by
      rw [hvals, List.head?_eq_getElem?, List.getElem?_map,
        List.getElem?_range hp0]
      simp [hF0]
    have hl : vals.getLast? = some e := by
      rw [hvals, List.getLast?_eq_getElem?, List.length_map, List.length_range,
        List.getElem?_map, List.getElem?_range hlast]
      simp [hFlast]
    constructor
    · intro hse
      have hmonoF : ∀ i j : ℕ, i ≤ j → F i ≤ F j := by
        intro i j hij
        show s + (e - s) / ((p - 1 : ℕ) : ℚ) * (i : ℚ) ≤
          s + (e - s) / ((p - 1 : ℕ) : ℚ) * (j : ℚ)
        have hc : (i : ℚ) ≤ (j : ℚ) := by exact_mod_cast hij
        have hd : 0 ≤ (e - s) / ((p - 1 : ℕ) : ℚ) :=
          div_nonneg (by linarith) hp1.le
        have := mul_le_mul_of_nonneg_left hc hd
        linarith
      apply finishPlan_pairwise s e vals ?_ hh hl
      rw [hvals]
      exact (List.pairwise_le_range p).map F fun a b hab => hmonoF a b hab
    · intro hes
      have hantiF : ∀ i j : ℕ, i ≤ j → F j ≤ F i := by
        intro i j hij
        show s + (e - s) / ((p - 1 : ℕ) : ℚ) * (j : ℚ) ≤
          s + (e - s) / ((p - 1 : ℕ) : ℚ) * (i : ℚ)
        have hc : (i : ℚ) ≤ (j : ℚ) := by exact_mod_cast hij
        have hd : (e - s) / ((p - 1 : ℕ) : ℚ) ≤ 0 :=
          div_nonpos_iff.mpr (Or.inr ⟨by linarith, hp1.le⟩)
        have := mul_le_mul_of_nonpos_left hc hd
        linarith
      apply finishPlan_pairwise_ge s e vals ?_ hh hl
      rw [hvals]
      exact (List.pairwise_le_range p).map F fun a b hab => hantiF a b hab

/-- Witness for the amended C5 at concrete inputs: the three-point linear
plan from 1 up to 2 is monotone non-decreasing, and the three-point linear
plan from 2 down to 1 is monotone non-increasing. -/
theorem build_freq_points_monotone_witness :
    ((1 : ℚ) ≤ 2 ∧
      build_freq_points ⟨id, id⟩ 1 2 3 "linear" = Except.ok [1, 3/2, 2] ∧
      List.Pairwise (· ≤ ·) ([1, 3/2, 2] : List ℚ)) ∧
    ((1 : ℚ) ≤ 2 ∧
      build_freq_points ⟨id, id⟩ 2 1 3 "linear" = Except.ok [2, 3/2, 1] ∧
      List.Pairwise (· ≥ ·) ([2, 3/2, 1] : List ℚ)) :=
  have hno : ∀ s e : ℚ, isLogMode "linear" = true → Monotone (id : ℚ → ℚ) ∧
      id (id s) = s ∧ id (id e) = e ∧
      (s ≤ e → id s ≤ id e) ∧ (e ≤ s → id e ≤ id s) := fun _ _ hlog =>
    absurd hlog (by rw [isLogMode_linear]; exact Bool.false_ne_true)
  have hup : build_freq_points ⟨id, id⟩ 1 2 3 "linear" = Except.ok [1, 3/2, 2] := by
    norm_num [build_freq_points, isLogMode_linear, finishPlan, setHead, setLast,
      List.range_succ, round6, roundHalfEven]
  have hdown : build_freq_points ⟨id, id⟩ 2 1 3 "linear" = Except.ok [2, 3/2, 1] := by
    norm_num [build_freq_points, isLogMode_linear, finishPlan, setHead, setLast,
      List.range_succ, round6, roundHalfEven]
  ⟨⟨by norm_num, hup,
    (build_freq_points_monotone ⟨id, id⟩ 1 2 3 "linear" [1, 3/2, 2]
      (hno 1 2) hup).1 (by norm_num)⟩,
   ⟨by norm_num, hdown,
    (build_freq_points_monotone ⟨id, id⟩ 2 1 3 "linear" [2, 3/2, 1]
      (hno 2 1) hdown).2 (by norm_num)⟩⟩

/-- C6 (amended): the plan generator raises exactly when `count < 2`, or
when the mode is log and `start ≤ 0` or `stop ≤ 0`.  A negative drop-dB,
however, is not validated anywhere: the sweep orchestrator accepts it and
still returns a full-length result table. -/
theorem build_freq_points_invalid_iff :
    (∀ (P : PlanPrims) (s e : ℚ) (p : ℕ) (mode : String),
      (∃ msg, build_freq_points P s e p mode = .error msg) ↔
        (p ≤ 1 ∨ (isLogMode mode = true ∧ (s ≤ 0 ∨ e ≤ 0)))) ∧
    (∀ (cb : SweepCallbacks) (freqs : List ℚ) (doThd : Bool)
      (refMode : Option String) (refHz : Option ℚ) (dropDb : ℚ), dropDb < 0 →
      (sweep_audio_kpis cb freqs doThd true refMode refHz dropDb).rows.length =
        freqs.length) := by
  constructor
  · intro P s e p mode
    unfold build_freq_points
    split_ifs with h1 h2 h3
    · simp [h1]
    · simp [h1, h2, h3]
    · simp [h1, h2, h3]
    · simp [h1, h2]
  · intro cb freqs doThd refMode refHz dropDb hneg
    simp [sweep_audio_kpis]

/-- Witness for the amended C6: a log plan with negative start fails with
`InvalidParameter`, while a sweep invoked with `drop_db = -1` still
returns one row per frequency. -/
theorem build_freq_points_invalid_iff_witness :
    (∃ msg, build_freq_points ⟨id, id⟩ (-1) 5 10 "log" = Except.error msg) ∧
    (-1 : ℚ) < 0 ∧
    (sweep_audio_kpis cbNegDrop [7] false true none none (-1)).rows.length = 1 :=
  ⟨(build_freq_points_invalid_iff.1 ⟨id, id⟩ (-1) 5 10 "log").mpr
      (Or.inr ⟨isLogMode_log, Or.inl (by norm_num)⟩),
   by norm_num,
   by simpa using
     build_freq_points_invalid_iff.2 cbNegDrop [7] false none none (-1) (by norm_num)⟩

/-- C6 counterexample: nothing validates a negative drop-dB.  With
`drop_db = -1` the sweep starts, processes every frequency, performs knee
detection (passing the negative drop through), and returns normally, so
no `InvalidParameter` is raised before the sweep. -/
theorem negative_drop_db_no_error :
    sweep_audio_kpis cbNegDrop [100, 200] false true none none (-1) =
      ⟨[(100, .val 1, .val 1, none), (200, .val 1, .val 1, none)],
       some (.val (-1), .nan, .nan, .nan)⟩ := by
  norm_num [sweep_audio_kpis, successVrms, sweepStep, cbNegDrop, refModeEff,
    refHzEff, List.enum, List.enumFrom, List.filterMap]
  intro h
  exact absurd h (by simp)

/-! ### Spectral-analysis lemmas -/

theorem sampleInterval_pos (t : List ℚ) (n : ℕ) (hn : 2 ≤ n) :
    0 < sampleInterval t n := by
  simp only [sampleInterval]
  split_ifs with h1 h2
  · have hden : (0 : ℚ) < ((n - 1 : ℕ) : ℚ) := by
      exact_mod_cast (by omega : 0 < n - 1)
    exact div_pos h2 hden
  · norm_num
  · exact not_le.mp h1

theorem rfftfreq_strictMono (n : ℕ) (dt : ℚ) (h : 0 < (n : ℚ) * dt) :
    StrictMono (rfftfreq n dt) := by
  intro a b hab
  unfold rfftfreq
  exact (div_lt_div_right h).mpr (by exact_mod_cast hab)

theorem rfftfreq_mul (n : ℕ) (dt : ℚ) (k i : ℕ) :
    (k : ℚ) * rfftfreq n dt i = rfftfreq n dt (k * i) := by
  unfold rfftfreq
  push_cast
  ring

theorem selectFund_bounds (mag f : ℕ → ℚ) (m : ℕ) (f0 : Option ℚ)
    (hm : 2 ≤ m) : 1 ≤ selectFund mag f m f0 ∧ selectFund mag f m f0 < m := by
  cases f0 with
  | none => exact argmaxFrom_one_bounds mag m hm
  | some h0 =>
    simp only [selectFund]
    split_ifs with h1 h2
    · exact argmaxFrom_one_bounds mag m hm
    · exact argmaxFrom_one_bounds mag m hm
    · refine ⟨by omega, argminAll_lt _ m (by omega)⟩

theorem nearestBin_rfftfreq (n : ℕ) (dt : ℚ) (m j : ℕ)
    (h : 0 < (n : ℚ) * dt) (hj : j < m) :
    nearestBin (rfftfreq n dt) m (rfftfreq n dt j) = j := by
  unfold nearestBin
  apply argminAll_eq _ m j hj
  intro j' hj' hne
  have hpos : 0 < |rfftfreq n dt j' - rfftfreq n dt j| := by
    rw [abs_pos, sub_ne_zero]
    exact fun hEq => hne ((rfftfreq_strictMono n dt h).injective hEq)
  simpa using hpos

theorem harmTerms_eq_takeWhile (mag f : ℕ → ℚ) (m : ℕ) (fidx : ℚ)
    (ks : List ℕ) :
    harmTerms mag f m fidx ks =
      ((ks.takeWhile fun (k : ℕ) => decide ((k : ℚ) * fidx ≤ f (m - 1))).map fun (k : ℕ) =>
        if nearestBin f m ((k : ℚ) * fidx) = 0 ∨ m ≤ nearestBin f m ((k : ℚ) * fidx) then 0
        else mag (nearestBin f m ((k : ℚ) * fidx)) ^ 2).sum := by
  induction ks with
  | nil => simp [harmTerms]
  | cons k rest ih =>
    simp only [harmTerms, List.takeWhile]
    by_cases hc : f (m - 1) < (k : ℚ) * fidx
    · rw [if_pos hc]
      have hd : decide ((k : ℚ) * fidx ≤ f (m - 1)) = false := by
        simp [not_le.mpr hc]
      rw [hd]
      simp
    · rw [if_neg hc]
      have hd : decide ((k : ℚ) * fidx ≤ f (m - 1)) = true := by
        simp [not_lt.mp hc]
      rw [hd]
      simp [ih]

/-- C7: any waveform with fewer than 16 voltage samples makes `thd_fft`
return the all-NaN triple, whatever the time data, hint, harmonic count,
window, and numpy primitives are; being a total function, it raises
nothing. -/
theorem thd_fft_short_input (P : SpectralPrims) (t v : List ℚ)
    (f0 : Option ℚ) (nharm : ℤ) (window : String) (h : v.length < 16) :
    thd_fft P t v f0 nharm window = (.nan, .nan, .nan) := by
  unfold thd_fft
  rw [if_pos h]

/-- Witness for C7 at a concrete input: a two-sample waveform. -/
theorem thd_fft_short_input_witness :
    ([1, 2] : List ℚ).length < 16 ∧
    thd_fft primsZero [0, 1] [1, 2] (some 50) 10 "hann" = (.nan, .nan, .nan) :=
  ⟨by norm_num,
   thd_fft_short_input primsZero [0, 1] [1, 2] (some 50) 10 "hann" (by norm_num)⟩

/-- C3: for every waveform with at least 16 samples, the reported
fundamental-frequency estimate is the frequency of the selected bin, and
that bin obeys the spec's selection rule: without a positive hint it is a
maximum-magnitude bin among the non-DC bins; with a positive hint it is
the bin whose frequency is nearest the hint, falling back to the
max-magnitude rule exactly when the nearest bin is DC. -/
theorem thd_fft_fundamental_selection (P : SpectralPrims) (t v : List ℚ)
    (f0 : Option ℚ) (nharm : ℤ) (window : String) (mag f : ℕ → ℚ)
    (m idx : ℕ) (h16 : 16 ≤ v.length)
    (hmag : mag = P.fftMag (windowed (windowCoeff P window v.length) v))
    (hf : f = rfftfreq v.length (sampleInterval t v.length))
    (hm : m = rfftLen v.length)
    (hidx : idx = selectFund mag f m f0) :
    (thd_fft P t v f0 nharm window).2.1 = .val (f idx) ∧
    ((f0 = none ∨ ∃ h0, f0 = some h0 ∧ h0 ≤ 0) →
      1 ≤ idx ∧ idx < m ∧ ∀ j, 1 ≤ j → j < m → mag j ≤ mag idx) ∧
    (∀ h0, f0 = some h0 → 0 < h0 →
      (argminAll (fun j => |f j - h0|) m ≠ 0 →
        idx = argminAll (fun j => |f j - h0|) m ∧ idx < m ∧
        ∀ j, j < m → |f idx - h0| ≤ |f j - h0|) ∧
      (argminAll (fun j => |f j - h0|) m = 0 →
        1 ≤ idx ∧ idx < m ∧ ∀ j, 1 ≤ j → j < m → mag j ≤ mag idx)) := by
  have hm2 : 2 ≤ m := by rw [hm]; unfold rfftLen; omega
  have hnone : selectFund mag f m none = argmaxFrom mag 1 m := rfl
  have hsp : ∀ h0 : ℚ, 0 < h0 → selectFund mag f m (some h0) =
      if argminAll (fun j => |f j - h0|) m = 0 then argmaxFrom mag 1 m
      else argminAll (fun j => |f j - h0|) m := by
    intro h0 hpos
    simp only [selectFund]
    rw [if_neg (not_le.mpr hpos)]
  have hsn : ∀ h0 : ℚ, h0 ≤ 0 → selectFund mag f m (some h0) = argmaxFrom mag 1 m := by
    intro h0 hle
    simp only [selectFund]
    rw [if_pos hle]
  have hmaxgoal : 1 ≤ argmaxFrom mag 1 m ∧ argmaxFrom mag 1 m < m ∧
      ∀ j, 1 ≤ j → j < m → mag j ≤ mag (argmaxFrom mag 1 m) := by
    obtain ⟨h1, h2⟩ := argmaxFrom_one_bounds mag m hm2
    exact ⟨h1, h2, fun j hj1 hj2 => argmaxFrom_one_le mag m j hj1 hj2⟩
  refine ⟨?_, ?_, ?_⟩
  · subst hmag hf hm hidx
    simp only [thd_fft]
    rw [if_neg (by omega : ¬ v.length < 16)]
    split_ifs <;> rfl
  · intro hcase
    have hsel : idx = argmaxFrom mag 1 m := by
      rcases hcase with hc | ⟨h0, hsome, hle⟩
      · rw [hidx, hc, hnone]
      · rw [hidx, hsome, hsn h0 hle]
    rw [hsel]
    exact hmaxgoal
  · intro h0 hsome hpos
    constructor
    · intro hne
      have hsel : idx = argminAll (fun j => |f j - h0|) m := by
        rw [hidx, hsome, hsp h0 hpos, if_neg hne]
      refine ⟨hsel, ?_, ?_⟩
      · rw [hsel]
        exact argminAll_lt (fun j => |f j - h0|) m (by omega)
      · intro j hj
        rw [hsel]
        exact argminAll_le (fun j => |f j - h0|) m j hj
    · intro hzero
      have hsel : idx = argmaxFrom mag 1 m := by
        rw [hidx, hsome, hsp h0 hpos, if_pos hzero]
      rw [hsel]
      exact hmaxgoal

/-- On the uniform rfft frequency grid the skip-guard of the harmonic loop
is vacuous: every in-range harmonic target hits a bin that is neither DC
nor out of range, so the accumulated sum is exactly the sum over the
nearest bins of the targets kept by the early-stop rule. -/
theorem harmTerms_no_skip (mag : ℕ → ℚ) (n : ℕ) (dt : ℚ) (m idx : ℕ)
    (ks : List ℕ) (hndt : 0 < (n : ℚ) * dt) (hm1 : 1 ≤ m) (hidx1 : 1 ≤ idx)
    (hks : ∀ k ∈ ks, 2 ≤ k) :
    harmTerms mag (rfftfreq n dt) m (rfftfreq n dt idx) ks =
      ((ks.takeWhile fun (k : ℕ) =>
          decide ((k : ℚ) * rfftfreq n dt idx ≤ rfftfreq n dt (m - 1))).map
        fun (k : ℕ) =>
          mag (nearestBin (rfftfreq n dt) m ((k : ℚ) * rfftfreq n dt idx)) ^ 2).sum := by
  rw [harmTerms_eq_takeWhile]
  apply congrArg List.sum
  apply List.map_congr_left
  intro k0 hk
  have hk2 : 2 ≤ k0 := hks k0 (List.takeWhile_subset _ hk)
  have hkle : (k0 : ℚ) * rfftfreq n dt idx ≤ rfftfreq n dt (m - 1) := by
    have hpk := List.mem_takeWhile_imp hk
    simp only [decide_eq_true_eq] at hpk
    exact hpk
  have hmul : (k0 : ℚ) * rfftfreq n dt idx = rfftfreq n dt (k0 * idx) :=
    rfftfreq_mul n dt k0 idx
  have hkidx : k0 * idx ≤ m - 1 := by
    by_contra hcon
    push_neg at hcon
    have hlt := rfftfreq_strictMono n dt hndt hcon
    rw [← hmul] at hlt
    exact absurd hkle (not_le.mpr hlt)
  have hltm : k0 * idx < m := by omega
  have hnb : nearestBin (rfftfreq n dt) m ((k0 : ℚ) * rfftfreq n dt idx) = k0 * idx := by
    rw [hmul]
    exact nearestBin_rfftfreq n dt m (k0 * idx) hndt hltm
  have hguard : ¬(nearestBin (rfftfreq n dt) m ((k0 : ℚ) * rfftfreq n dt idx) = 0 ∨
      m ≤ nearestBin (rfftfreq n dt) m ((k0 : ℚ) * rfftfreq n dt idx)) := by
    rw [hnb]
    push_neg
    constructor
    · have h21 : 2 * 1 ≤ k0 * idx := Nat.mul_le_mul hk2 hidx1
      omega
    · omega
  rw [if_neg hguard]

/-- C2: for every waveform with at least 16 samples whose selected
fundamental-bin magnitude is positive, `thd_fft` returns the triple whose
THD component is `sqrt(sum of located harmonic magnitudes squared) /
fundamental magnitude`, where the located bins are the FFT bins nearest
`k·f0` for `k = 2..harmonic count`, the search stopping as soon as `k·f0`
exceeds the highest FFT frequency. -/
theorem thd_fft_harmonic_sum (P : SpectralPrims) (t v : List ℚ)
    (f0 : Option ℚ) (nharm : ℤ) (window : String) (mag f : ℕ → ℚ)
    (m idx : ℕ) (h16 : 16 ≤ v.length)
    (hmag : mag = P.fftMag (windowed (windowCoeff P window v.length) v))
    (hf : f = rfftfreq v.length (sampleInterval t v.length))
    (hm : m = rfftLen v.length)
    (hidx : idx = selectFund mag f m f0)
    (hfund : 0 < mag idx) :
    thd_fft P t v f0 nharm window =
      (.val (P.sqrtQ (((harmKs nharm).takeWhile fun (k : ℕ) =>
          decide ((k : ℚ) * f idx ≤ f (m - 1))).map fun (k : ℕ) =>
            mag (nearestBin f m ((k : ℚ) * f idx)) ^ 2).sum / mag idx),
       .val (f idx), .val (mag idx)) := by
  have hn16 : ¬ v.length < 16 := by omega
  subst hmag hf hm
  have hdt := sampleInterval_pos t v.length (by omega)
  have hndt : 0 < (v.length : ℚ) * sampleInterval t v.length :=
    mul_pos (by exact_mod_cast (show 0 < v.length by omega)) hdt
  have hm2 : 2 ≤ rfftLen v.length := by unfold rfftLen; omega
  have hidx1 : 1 ≤ idx := by
    rw [hidx]
    exact (selectFund_bounds _ _ _ f0 hm2).1
  have hks : ∀ k ∈ harmKs nharm, 2 ≤ k := by
    intro k hk
    unfold harmKs at hk
    exact (List.mem_range'_1.mp hk).1
  have hsum := harmTerms_no_skip
    (P.fftMag (windowed (windowCoeff P window v.length) v))
    v.length (sampleInterval t v.length) (rfftLen v.length) idx (harmKs nharm)
    hndt (by omega) hidx1 hks
  simp only [thd_fft]
  rw [if_neg hn16, ← hidx, if_neg (not_le.mpr hfund), hsum]

/-- Witness for C3 at a concrete input: 16 constant samples analysed with
the bin-3-peaked primitives and no hint select bin 3, whose frequency on
the 1 µs fallback grid is 187500 Hz. -/
theorem thd_fft_fundamental_selection_witness :
    16 ≤ v16.length ∧
    (thd_fft primsB [] v16 none 10 "hann").2.1 = EF.val 187500 :=
  have h := (thd_fft_fundamental_selection primsB [] v16 none 10 "hann"
      (primsB.fftMag (windowed (windowCoeff primsB "hann" v16.length) v16))
      (rfftfreq v16.length (sampleInterval [] v16.length))
      (rfftLen v16.length)
      (selectFund
        (primsB.fftMag (windowed (windowCoeff primsB "hann" v16.length) v16))
        (rfftfreq v16.length (sampleInterval [] v16.length))
        (rfftLen v16.length) none)
      (by norm_num [v16]) rfl rfl rfl rfl).1
  ⟨by norm_num [v16], by
    rw [h]
    norm_num [v16, primsB, selectFund, argmaxFrom, argMaxAux, rfftLen, rfftfreq,
      sampleInterval, medianQ, diffs, sortQ, List.range']⟩

/-- Witness for C2 at a concrete input: with magnitude 5 at bin 3 and 1 at
bin 6, no hint and a rectangular window, the fundamental is bin 3
(187500 Hz on the fallback grid), the only in-range harmonic is k = 2 at
bin 6, and the THD is sqrt(1)/5 = 1/5. -/
theorem thd_fft_harmonic_sum_witness :
    16 ≤ v16.length ∧
    0 < primsA.fftMag (windowed (windowCoeff primsA "none" v16.length) v16)
        (selectFund
          (primsA.fftMag (windowed (windowCoeff primsA "none" v16.length) v16))
          (rfftfreq v16.length (sampleInterval [] v16.length))
          (rfftLen v16.length) none) ∧
    thd_fft primsA [] v16 none 10 "none" = (.val (1/5), .val 187500, .val 5) :=
  have hpos : 0 < primsA.fftMag (windowed (windowCoeff primsA "none" v16.length) v16)
      (selectFund
        (primsA.fftMag (windowed (windowCoeff primsA "none" v16.length) v16))
        (rfftfreq v16.length (sampleInterval [] v16.length))
        (rfftLen v16.length) none) := by
    norm_num [v16, primsA, selectFund, argmaxFrom, argMaxAux, rfftLen, rfftfreq,
      sampleInterval, medianQ, diffs, sortQ, List.range']
  ⟨by norm_num [v16], hpos, by
    rw [thd_fft_harmonic_sum primsA [] v16 none 10 "none"
      (primsA.fftMag (windowed (windowCoeff primsA "none" v16.length) v16))
      (rfftfreq v16.length (sampleInterval [] v16.length))
      (rfftLen v16.length)
      (selectFund
        (primsA.fftMag (windowed (windowCoeff primsA "none" v16.length) v16))
        (rfftfreq v16.length (sampleInterval [] v16.length))
        (rfftLen v16.length) none)
      (by norm_num [v16]) rfl rfl rfl rfl hpos]
    norm_num [v16, primsA, selectFund, argmaxFrom, argMaxAux, argminAll, argMinAux,
      nearestBin, harmKs, rfftLen, rfftfreq, sampleInterval, medianQ, diffs, sortQ,
      List.range', List.takeWhile]⟩

/-! ### Knee-detector lemmas -/

theorem kneeScanAux_nan (target : ℚ) (fv adB : ℕ → ℚ) (l : List ℕ) :
    ∀ prevF prevDb, scanCross target adB l prevDb = false →
      kneeScanAux target fv adB l prevF prevDb = .nan := by
  induction l with
  | nil => intro prevF prevDb _; rfl
  | cons i rest ih =>
    intro prevF prevDb hno
    simp only [scanCross, Bool.or_eq_false_iff, decide_eq_false_iff_not] at hno
    simp only [kneeScanAux]
    rw [if_neg hno.1]
    exact ih (fv i) (adB i) hno.2

/-- C8: on the flat-then-rolling-off response of the spec's example, with
reference mode `max` and a 3 dB drop, `find_knees` returns a finite high
knee strictly above 1000 Hz.  The two hypotheses are the facts about
`np.log10` the computation touches: `log10 1 = 0` and `20·log10(0.7) ≤ -3`. -/
theorem find_knees_rolloff_high_knee (P : SpectralPrims)
    (hL1 : P.log10 1 = 0) (hL7 : 20 * P.log10 (7/10) ≤ -3) :
    ∃ q : ℚ,
      (find_knees P [10, 20, 50, 100, 200, 500, 1000, 2000, 5000, 10000]
        [1, 1, 1, 1, 1, 1, 1, 7/10, 2/5, 1/5] "max" 1000 3).2.1 = EF.val q ∧
      1000 < q := by
  have hmax1 : max (1 : ℚ) (1 / 10 ^ 18) = 1 := max_eq_left (by norm_num)
  have hmax7 : max ((7 : ℚ) / 10) (1 / 10 ^ 18) = 7 / 10 := max_eq_left (by norm_num)
  have hneg : 20 * P.log10 (7 / 10) < 0 := lt_of_le_of_lt hL7 (by norm_num)
  have hne : 20 * P.log10 (7 / 10) ≠ 0 := ne_of_lt hneg
  have hmf : ("max" : String) ≠ "freq" := by decide
  norm_num [find_knees, kneeRefIdx, argmaxFrom, argMaxAux, kneeScanAux,
    List.range', hL1, hL7, hmax1, hmax7, hne, hmf]
  have hdivneg : (3 : ℚ) / (20 * P.log10 (7 / 10)) < 0 :=
    div_neg_of_pos_of_neg (by norm_num) hneg
  have hdivpos : 0 < (-3 : ℚ) / (20 * P.log10 (7 / 10)) := by
    rw [neg_div]
    exact neg_pos.mpr hdivneg
  linarith [hdivpos]

/-- Witness for C8: the stand-in logarithm satisfies both hypotheses, so
the theorem applies to it. -/
theorem find_knees_rolloff_high_knee_witness :
    primsKnee.log10 1 = 0 ∧ 20 * primsKnee.log10 (7/10) ≤ -3 ∧
    ∃ q : ℚ,
      (find_knees primsKnee [10, 20, 50, 100, 200, 500, 1000, 2000, 5000, 10000]
        [1, 1, 1, 1, 1, 1, 1, 7/10, 2/5, 1/5] "max" 1000 3).2.1 = EF.val q ∧
      1000 < q :=
  have h1 : primsKnee.log10 1 = 0 := by norm_num [primsKnee, log10Fake]
  have h2 : 20 * primsKnee.log10 (7/10) ≤ -3 := by norm_num [primsKnee, log10Fake]
  ⟨h1, h2, find_knees_rolloff_high_knee primsKnee h1 h2⟩

/-- C10: the `thd_fft` and `find_knees` duplicated in
`unified_gui_layout.py` are extensionally identical to the
`amp_benchkit.dsp` versions, and in particular both `find_knees` variants
leave the high knee as NaN — with no fallback to the last frequency —
whenever no adjacent pair on the high side straddles the target level. -/
theorem dsp_gui_duplicate_equiv :
    (∀ (P : SpectralPrims) (t v : List ℚ) (f0 : Option ℚ) (nharm : ℤ)
      (window : String),
      UnifiedGui.thd_fft P t v f0 nharm window = thd_fft P t v f0 nharm window) ∧
    (∀ (P : SpectralPrims) (freqs amps : List ℚ) (refMode : String)
      (refHz dropDb : ℚ),
      UnifiedGui.find_knees P freqs amps refMode refHz dropDb =
        find_knees P freqs amps refMode refHz dropDb) ∧
    (∀ (P : SpectralPrims) (freqs amps : List ℚ) (refMode : String)
      (refHz dropDb : ℚ) (fv av adB : ℕ → ℚ) (idx : ℕ) (target : ℚ),
      fv = (fun i => freqs.getD i 0) →
      av = (fun i => amps.getD i 0) →
      idx = kneeRefIdx fv av freqs.length refMode refHz →
      target = 20 * P.log10 (av idx) - dropDb →
      adB = (fun j => 20 * P.log10 (max (av j) (1 / 10 ^ 18))) →
      scanCross target adB
        (List.range' (idx + 1) (freqs.length - (idx + 1))) (adB idx) = false →
      (find_knees P freqs amps refMode refHz dropDb).2.1 = EF.nan ∧
      (UnifiedGui.find_knees P freqs amps refMode refHz dropDb).2.1 = EF.nan) := by
  refine ⟨fun P t v f0 nharm window => rfl, fun P freqs amps rm rh dd => rfl, ?_⟩
  intro P freqs amps refMode refHz dropDb fv av adB idx target hfv hav hidx
    htarget hadB hscan
  subst hfv hav hidx htarget hadB
  have hmain : (find_knees P freqs amps refMode refHz dropDb).2.1 = EF.nan := by
    simp only [find_knees]
    split_ifs with h1 h2
    · rfl
    · rfl
    · exact kneeScanAux_nan _ _ _ _ _ _ hscan
  refine ⟨hmain, ?_⟩
  rw [show UnifiedGui.find_knees P freqs amps refMode refHz dropDb =
    find_knees P freqs amps refMode refHz dropDb from rfl]
  exact hmain

/-- Witness for C10 on a flat two-point response: no high-side crossing
exists for a 3 dB drop, and both variants report a NaN high knee. -/
theorem dsp_gui_duplicate_equiv_witness :
    scanCross
      (20 * primsKnee.log10 ((fun i => ([1, 1] : List ℚ).getD i 0)
        (kneeRefIdx (fun i => ([10, 20] : List ℚ).getD i 0)
          (fun i => ([1, 1] : List ℚ).getD i 0) ([10, 20] : List ℚ).length "max" 1000)) - 3)
      (fun j => 20 * primsKnee.log10 (max ((fun i => ([1, 1] : List ℚ).getD i 0) j) (1 / 10 ^ 18)))
      (List.range'
        ((kneeRefIdx (fun i => ([10, 20] : List ℚ).getD i 0)
          (fun i => ([1, 1] : List ℚ).getD i 0) ([10, 20] : List ℚ).length "max" 1000) + 1)
        (([10, 20] : List ℚ).length -
          ((kneeRefIdx (fun i => ([10, 20] : List ℚ).getD i 0)
            (fun i => ([1, 1] : List ℚ).getD i 0) ([10, 20] : List ℚ).length "max" 1000) + 1)))
      ((fun j => 20 * primsKnee.log10 (max ((fun i => ([1, 1] : List ℚ).getD i 0) j) (1 / 10 ^ 18)))
        (kneeRefIdx (fun i => ([10, 20] : List ℚ).getD i 0)
          (fun i => ([1, 1] : List ℚ).getD i 0) ([10, 20] : List ℚ).length "max" 1000)) = false ∧
    (find_knees primsKnee [10, 20] [1, 1] "max" 1000 3).2.1 = EF.nan ∧
    (UnifiedGui.find_knees primsKnee [10, 20] [1, 1] "max" 1000 3).2.1 = EF.nan :=
  have hscan : scanCross
      (20 * primsKnee.log10 ((fun i => ([1, 1] : List ℚ).getD i 0)
        (kneeRefIdx (fun i => ([10, 20] : List ℚ).getD i 0)
          (fun i => ([1, 1] : List ℚ).getD i 0) ([10, 20] : List ℚ).length "max" 1000)) - 3)
      (fun j => 20 * primsKnee.log10 (max ((fun i => ([1, 1] : List ℚ).getD i 0) j) (1 / 10 ^ 18)))
      (List.range'
        ((kneeRefIdx (fun i => ([10, 20] : List ℚ).getD i 0)
          (fun i => ([1, 1] : List ℚ).getD i 0) ([10, 20] : List ℚ).length "max" 1000) + 1)
        (([10, 20] : List ℚ).length -
          ((kneeRefIdx (fun i => ([10, 20] : List ℚ).getD i 0)
            (fun i => ([1, 1] : List ℚ).getD i 0) ([10, 20] : List ℚ).length "max" 1000) + 1)))
      ((fun j => 20 * primsKnee.log10 (max ((fun i => ([1, 1] : List ℚ).getD i 0) j) (1 / 10 ^ 18)))
        (kneeRefIdx (fun i => ([10, 20] : List ℚ).getD i 0)
          (fun i => ([1, 1] : List ℚ).getD i 0) ([10, 20] : List ℚ).length "max" 1000)) = false := by
    have hmf : ("max" : String) ≠ "freq" := by decide
    have hmax1 : max (1 : ℚ) (1 / 10 ^ 18) = 1 := max_eq_left (by norm_num)
    norm_num [scanCross, kneeRefIdx, argmaxFrom, argMaxAux, primsKnee, log10Fake,
      hmf, hmax1, List.range']
  ⟨hscan,
   (dsp_gui_duplicate_equiv.2.2 primsKnee [10, 20] [1, 1] "max" 1000 3
     _ _ _ _ _ rfl rfl rfl rfl rfl hscan)⟩

/-! ### Sweep-orchestrator lemmas -/

theorem sweepStep_raises (cb : SweepCallbacks) (doThd : Bool) (i : ℕ) (f : ℚ)
    (h : stepRaises cb doThd i f = true) :
    (sweepStep cb doThd i f).1 = nanRow f doThd := by
  unfold stepRaises at h
  cases hfy : cb.fyApply i f with
  | error e => simp [sweepStep, hfy]
  | ok u =>
    simp only [hfy] at h
    cases hcap : cb.capture i with
    | error e => simp [sweepStep, hfy, hcap]
    | ok tv =>
      obtain ⟨t, v⟩ := tv
      simp only [hcap] at h
      cases hvr : cb.dspVrms v with
      | error e => simp [sweepStep, hfy, hcap, hvr]
      | ok vr =>
        simp only [hvr] at h
        cases hpp : cb.dspVpp v with
        | error e => simp [sweepStep, hfy, hcap, hvr, hpp]
        | ok pp =>
          simp only [hpp] at h
          cases hdo : doThd with
          | false =>
            simp only [hdo] at h
            simp at h
          | true =>
            simp only [hdo] at h
            simp only [Bool.true_and] at h
            cases hthd : cb.dspThd t v f with
            | error e =>
              simp [sweepStep, hfy, hcap, hvr, hpp, hdo, hthd, nanRow]
            | ok r =>
              simp only [hthd] at h
              simp at h

theorem sweepStep_ok (cb : SweepCallbacks) (doThd : Bool) (i : ℕ) (f : ℚ)
    (h : stepRaises cb doThd i f = false) :
    ∃ t v vr pp, cb.capture i = .ok (t, v) ∧ cb.dspVrms v = .ok vr ∧
      cb.dspVpp v = .ok pp ∧
      ((doThd = false ∧ (sweepStep cb doThd i f).1 = (f, vr, pp, none)) ∨
       (doThd = true ∧ ∃ thd fe fa, cb.dspThd t v f = .ok (thd, fe, fa) ∧
         (sweepStep cb doThd i f).1 = (f, vr, pp, some thd))) := by
  unfold stepRaises at h
  cases hfy : cb.fyApply i f with
  | error e => simp only [hfy] at h; simp at h
  | ok u =>
    simp only [hfy] at h
    cases hcap : cb.capture i with
    | error e => simp only [hcap] at h; simp at h
    | ok tv =>
      obtain ⟨t, v⟩ := tv
      simp only [hcap] at h
      cases hvr : cb.dspVrms v with
      | error e => simp only [hvr] at h; simp at h
      | ok vr =>
        simp only [hvr] at h
        cases hpp : cb.dspVpp v with
        | error e => simp only [hpp] at h; simp at h
        | ok pp =>
          simp only [hpp] at h
          refine ⟨t, v, vr, pp, rfl, hvr, hpp, ?_⟩
          cases hdo : doThd with
          | false =>
            refine Or.inl ⟨rfl, ?_⟩
            simp [sweepStep, hfy, hcap, hvr, hpp, hdo]
          | true =>
            simp only [hdo] at h
            simp only [Bool.true_and] at h
            cases hthd : cb.dspThd t v f with
            | error e => simp only [hthd] at h; simp at h
            | ok r =>
              obtain ⟨thd, fe, fa⟩ := r
              refine Or.inr ⟨rfl, thd, fe, fa, rfl, ?_⟩
              simp [sweepStep, hfy, hcap, hvr, hpp, hdo, hthd]

/-- C1: the sweep orchestrator returns exactly one row per input
frequency, in plan order; a row whose callbacks raised is the NaN row
(NaN rms and peak-to-peak, NaN THD exactly when THD was requested), and a
row whose callbacks did not raise carries exactly the values the
callbacks returned.  The orchestrator itself is a total function, so no
callback exception propagates out of the sweep. -/
theorem sweep_audio_kpis_fail_soft (cb : SweepCallbacks) (freqs : List ℚ)
    (doThd doKnees : Bool) (refMode : Option String) (refHz : Option ℚ)
    (dropDb : ℚ) :
    (sweep_audio_kpis cb freqs doThd doKnees refMode refHz dropDb).rows.length =
      freqs.length ∧
    ∀ i : ℕ, ∀ hi : i < freqs.length,
      (sweep_audio_kpis cb freqs doThd doKnees refMode refHz dropDb).rows[i]? =
        some (sweepStep cb doThd i freqs[i]).1 ∧
      (stepRaises cb doThd i freqs[i] = true →
        (sweepStep cb doThd i freqs[i]).1 = nanRow freqs[i] doThd) ∧
      (stepRaises cb doThd i freqs[i] = false →
        ∃ t v vr pp, cb.capture i = .ok (t, v) ∧ cb.dspVrms v = .ok vr ∧
          cb.dspVpp v = .ok pp ∧
          ((doThd = false ∧
            (sweepStep cb doThd i freqs[i]).1 = (freqs[i], vr, pp, none)) ∨
           (doThd = true ∧ ∃ thd fe fa,
             cb.dspThd t v freqs[i] = .ok (thd, fe, fa) ∧
             (sweepStep cb doThd i freqs[i]).1 = (freqs[i], vr, pp, some thd)))) := by
  refine ⟨by simp [sweep_audio_kpis], ?_⟩
  intro i hi
  refine ⟨?_, sweepStep_raises cb doThd i freqs[i],
    sweepStep_ok cb doThd i freqs[i]⟩
  simp [sweep_audio_kpis, List.getElem?_map, List.getElem?_enum,
    List.getElem?_eq_getElem hi]

/-- Witness for C1: with a capture failure at loop index 1, the second
row of the sweep over [10, 20] is the NaN row. -/
theorem sweep_audio_kpis_fail_soft_witness :
    (1 : ℕ) < ([10, 20] : List ℚ).length ∧
    stepRaises cbFailAt1 true 1 (20 : ℚ) = true ∧
    (sweep_audio_kpis cbFailAt1 [10, 20] true false none none 3).rows[1]? =
      some (nanRow 20 true) := by
  have hi : (1 : ℕ) < ([10, 20] : List ℚ).length := by norm_num
  have h := (sweep_audio_kpis_fail_soft cbFailAt1 [10, 20] true false none none 3).2 1 hi
  have hr : stepRaises cbFailAt1 true 1 (20 : ℚ) = true := by
    simp [stepRaises, cbFailAt1]
  refine ⟨hi, hr, ?_⟩
  have h2 := h.2.1 (by simpa using hr)
  rw [h.1, h2]
  norm_num

/-- C9 (amended): when knee detection is requested and `vrms_vals` is
non-empty, the orchestrator calls the injected knee detector with the full
plan frequency list paired with the recorded rms values; when nothing was
recorded it skips knee detection entirely.  An rms value is recorded for a
loop iteration exactly when stimulus, capture, rms and peak-to-peak all
succeeded — a point whose THD computation raises still contributes its rms
(although its row is the NaN row) — so the amplitude series omits exactly
the points that failed before the rms append, and is shorter than the
frequency list whenever such a failure occurred. -/
theorem sweep_knees_successful_vrms (cb : SweepCallbacks) (freqs : List ℚ)
    (doThd : Bool) (refMode : Option String) (refHz : Option ℚ) (dropDb : ℚ) :
    (successVrms cb doThd freqs ≠ [] →
      (sweep_audio_kpis cb freqs doThd true refMode refHz dropDb).knees =
        some (cb.dspKnees freqs (successVrms cb doThd freqs)
          (refModeEff refMode) (refHzEff refHz) dropDb)) ∧
    (successVrms cb doThd freqs = [] →
      (sweep_audio_kpis cb freqs doThd true refMode refHz dropDb).knees = none) ∧
    (∀ (i : ℕ) (f : ℚ) (vr : EF),
      (sweepStep cb doThd i f).2 = some vr ↔
        ∃ u t v pp, cb.fyApply i f = .ok u ∧ cb.capture i = .ok (t, v) ∧
          cb.dspVrms v = .ok vr ∧ cb.dspVpp v = .ok pp) := by
  refine ⟨?_, ?_, ?_⟩
  · intro h
    simp [sweep_audio_kpis, h]
  · intro h
    simp [sweep_audio_kpis, h]
  · intro i f vr
    cases hfy : cb.fyApply i f with
    | error e => simp [sweepStep, hfy]
    | ok u =>
      cases hcap : cb.capture i with
      | error e => simp [sweepStep, hfy, hcap]
      | ok tv =>
        obtain ⟨t, v⟩ := tv
        cases hvr : cb.dspVrms v with
        | error e => simp [sweepStep, hfy, hcap, hvr]
        | ok vr0 =>
          cases hpp : cb.dspVpp v with
          | error e => simp [sweepStep, hfy, hcap, hvr, hpp]
          | ok pp0 =>
            have hstep : (sweepStep cb doThd i f).2 = some vr0 := by
              cases hdo : doThd with
              | false => simp [sweepStep, hfy, hcap, hvr, hpp, hdo]
              | true =>
                cases hthd : cb.dspThd t v f with
                | error e => simp [sweepStep, hfy, hcap, hvr, hpp, hdo, hthd]
                | ok r =>
                  obtain ⟨thd, fe, fa⟩ := r
                  simp [sweepStep, hfy, hcap, hvr, hpp, hdo, hthd]
            rw [hstep]
            constructor
            · intro hv
              injection hv with hv2
              exact ⟨u, t, v, pp0, rfl, rfl, by rw [hvr, hv2], hpp⟩
            · rintro ⟨u1, t1, v1, pp1, -, hcap1, hvr1, -⟩
              injection hcap1 with htv
              injection htv with ht hv
              rw [← hv, hvr] at hvr1
              injection hvr1 with hvv
              rw [hvv]

/-- Witness for the amended C9: with a capture failure at index 1 the knee
detector is called with the 2-frequency plan and the single recorded rms
value, and with callbacks whose THD computation always raises the rms of
the point is still recorded. -/
theorem sweep_knees_successful_vrms_witness :
    (successVrms cbFailAt1 false [100, 1000] ≠ [] ∧
      (sweep_audio_kpis cbFailAt1 [100, 1000] false true none none 3).knees =
        some (cbFailAt1.dspKnees [100, 1000] (successVrms cbFailAt1 false [100, 1000])
          (refModeEff none) (refHzEff none) 3)) ∧
    (sweepStep cbThdFail true 0 100).2 = some (EF.val 1) :=
  have h : successVrms cbFailAt1 false [100, 1000] ≠ [] := by
    simp [successVrms, sweepStep, cbFailAt1, List.enum, List.enumFrom]
  ⟨⟨h, (sweep_knees_successful_vrms cbFailAt1 [100, 1000] false none none 3).1 h⟩,
   ((sweep_knees_successful_vrms cbThdFail [100] true none none 3).2.2 0 100
       (EF.val 1)).mpr
     ⟨(), [0], [1], EF.val 2, rfl, rfl, rfl, rfl⟩⟩

/-- C9 counterexample: with two plan frequencies and a capture failure at
the second, the knee detector receives the full 2-element frequency list
but only a 1-element amplitude list, so the series it gets is not one
amplitude per plan frequency (a point failing before the rms append
contributes no amplitude at all, rather than a NaN pad). -/
theorem sweep_knees_partial_series_cex :
    (sweep_audio_kpis cbFailAt1 [100, 1000] false true none none 3).knees =
      some (.val 2, .val 1, .nan, .nan) := by
  norm_num [sweep_audio_kpis, successVrms, sweepStep, cbFailAt1, refModeEff,
    refHzEff, List.enum, List.enumFrom, List.filterMap]
